import Mathlib

/-!
# manifest-tool: the `push from-args` and `push from-spec` actions

A shallow embedding of `cmd/manifest-tool/push.go`.

* A Go `string` is a finite sequence of bytes.  It is modelled as a list of
  units (`GoString = List Char`); for the ASCII texts of the examples a unit is a
  byte.  The functions of Go package `strings` that the program calls (`Split`,
  `Replace`, and `Index`, `Count`, `HasPrefix` underneath them) only compare and
  copy units.  They are transcribed from the Go standard library, once for an
  arbitrary alphabet with decidable equality, and every fact proved about them
  holds for each alphabet.
* `logrus.Fatal`/`logrus.Fatalf` log the message and terminate the process.  An
  action is therefore modelled as a function that returns its `Trace`: the calls
  it made to `registry.PushManifestList` and the way it ended.
* What the actions obtain from outside (file system, YAML decoding, the
  registry collaborator, `filepath.Join`) is a parameter, the `World`.
-/

set_option autoImplicit false

namespace ManifestTool

/-! ## Go package `strings` -/

namespace strings

variable {α : Type} [DecidableEq α]

/-- `strings.HasPrefix s p`: does `s` begin with `p`. -/
def HasPrefix : List α → List α → Bool
  | _, [] => true
  | [], _ :: _ => false
  | c :: s, d :: p => decide (c = d) && HasPrefix s p

/-- `strings.Index s substr`: position of the first occurrence of `substr` in
`s`; `none` stands for Go's `-1`. -/
def Index : List α → List α → Option Nat
  | [], substr => if HasPrefix [] substr then some 0 else none
  | c :: s, substr =>
    if HasPrefix (c :: s) substr then some 0 else (Index s substr).map (· + 1)

/-- The loop of `strings.Count` for a non-empty `substr`: find the next
occurrence, count it, continue after it.  `fuel` bounds the iterations. -/
def countLoop (substr : List α) : Nat → List α → Nat
  | 0, _ => 0
  | fuel + 1, s =>
    match Index s substr with
    | none => 0
    | some i => 1 + countLoop substr fuel (s.drop (i + substr.length))

/-- `strings.Count s substr`: number of non-overlapping occurrences of `substr`
in `s` (one more than the number of units of `s` when `substr` is empty; Go
counts a one-byte `substr` with a byte loop, with the same result).  Every
iteration of the loop consumes at least one unit, so `s.length` iterations are
enough (`countLoop_fuel`). -/
def Count (s substr : List α) : Nat :=
  if substr = [] then s.length + 1 else countLoop substr s.length s

/-- The loop of `strings.genSplit`: at most `n` cuts, stopping early when the
separator no longer occurs; the rest of the string is the last element. -/
def genSplitLoop (sep : List α) : Nat → List α → List (List α)
  | 0, s => [s]
  | n + 1, s =>
    match Index s sep with
    | none => [s]
    | some m => s.take m :: genSplitLoop sep n (s.drop (m + sep.length))

/-- `strings.Split s sep` for a non-empty `sep` (`genSplit s sep 0 (-1)`): the
number of elements is `Count s sep + 1`, so the loop makes `Count s sep`
cuts. -/
def Split (s sep : List α) : List (List α) :=
  genSplitLoop sep (Count s sep) s

/-- The loop of `strings.Replace` for a non-empty `old`: `n` times, copy up to
the next occurrence of `old`, write `new`, continue after the occurrence. -/
def replaceLoop (old new : List α) : Nat → List α → List α
  | 0, s => s
  | n + 1, s =>
    match Index s old with
    | none => s
    | some j => s.take j ++ new ++ replaceLoop old new n (s.drop (j + old.length))

/-- `strings.Replace s old new n` for a non-empty `old`: a copy of `s` with the
first `n` non-overlapping occurrences of `old` replaced by `new` (all of them
when `n < 0`). -/
def Replace (s old new : List α) (n : Int) : List α :=
  if old = new ∨ n = 0 then s
  else
    let m := Count s old
    if m = 0 then s
    else replaceLoop old new (if n < 0 ∨ (m : Int) < n then m else n.toNat) s

end strings

/-! ## Data model -/

/-- A Go `string`. -/
abbrev GoString := List Char

/-- Modelled from the spec: the Platform Descriptor, `ocispec.Platform` in the
code (its declaration is not among the sources): operating-system name,
architecture name and variant, the three fields the action sets. -/
structure Platform where
  Architecture : GoString
  OS : GoString
  Variant : GoString
deriving DecidableEq

/-- Modelled from the spec: the Manifest Entry, `types.ManifestEntry` in the code
(declared in `pkg/types`, not among the sources): an image reference and the
platform it is for. -/
structure ManifestEntry where
  Image : GoString
  Platform : Platform
deriving DecidableEq

/-- Modelled from the spec: the Canonical Specification, `types.YAMLInput` in
the code (declared in `pkg/types`, not among the sources): the target image and
the ordered list of entries. -/
structure YAMLInput where
  Image : GoString
  Manifests : List ManifestEntry
deriving DecidableEq

/-- The arguments of one call of `registry.PushManifestList`. -/
structure PushCall where
  username : GoString
  password : GoString
  input : YAMLInput
  ignoreMissing : Bool
  insecure : Bool
  plainHTTP : Bool
  configPath : GoString
deriving DecidableEq

/-- What an action reads from its `*cli.Context`: the first positional
argument, the flags of the subcommand and the global flags. -/
structure Context where
  firstArg : GoString
  platforms : GoString
  template : GoString
  target : GoString
  ignoreMissing : Bool
  username : GoString
  password : GoString
  insecure : Bool
  plainHTTP : Bool
  dockerCfg : GoString
deriving DecidableEq

/-- The collaborators of the actions.  A Go `error` is represented by its
text. -/
structure World where
  filepathAbs : GoString → Except GoString GoString
  readFile : GoString → Except GoString GoString
  yamlUnmarshal : GoString → Except GoString YAMLInput
  filepathJoin : GoString → GoString → GoString
  PushManifestList : PushCall → Except GoString (GoString × Nat)

/-- How an action ends. -/
inductive Exit where
  /-- The action returns to its caller. -/
  | returned
  /-- `logrus.Fatal`/`logrus.Fatalf` with a message written in the action. -/
  | fatal (msg : GoString)
  /-- `logrus.Fatalf (fmt.Sprintf format args...)`. -/
  | fatalf (format : GoString) (args : List GoString)
  /-- `logrus.Fatal err` for an error returned by `registry.PushManifestList`. -/
  | fatalErr (err : GoString)
deriving DecidableEq

/-- The observable behaviour of one run of an action. -/
structure Trace where
  calls : List PushCall
  exit : Exit
deriving DecidableEq

/-! ## `push from-args` -/

/-- The message of line 89. -/
def missingArgumentMessage : GoString :=
  "You must specify all three arguments --platforms, --template and --target".toList

/-- The message of line 97. -/
def malformedPlatformMessage : GoString :=
  "The --platforms argument must be a string slice where one value is of the form 'os/arch'".toList

/-- Line 105: the image reference of an entry. -/
def resolveImage (templ os arch variant : GoString) : GoString :=
  strings.Replace
    (strings.Replace (strings.Replace templ "ARCH".toList arch 1) "OS".toList os 1)
    "VARIANT".toList variant 1

/-- Lines 99-111: the entry appended for an element whose segments are
`osArchArr` (of length 2 or 3, by the check of line 96). -/
def buildEntry (templ : GoString) (osArchArr : List GoString) : ManifestEntry :=
  let variant : GoString := []
  let os := osArchArr.getD 0 []
  let arch := osArchArr.getD 1 []
  let variant := if osArchArr.length = 3 then osArchArr.getD 2 [] else variant
  { Image := resolveImage templ os arch variant
    Platform :=
      { OS := os, Architecture := arch, Variant := variant } }

/-- Lines 94-112: the loop over `platformList`, started with the entries
collected so far; `Except.error` carries the message of the `logrus.Fatal`
that ends the process. -/
def buildEntries (templ : GoString) :
    List GoString → List ManifestEntry → Except GoString (List ManifestEntry)
  | [], srcImages => .ok srcImages
  | platform :: rest, srcImages =>
    let osArchArr := strings.Split platform "/".toList
    if osArchArr.length ≠ 2 ∧ osArchArr.length ≠ 3 then
      .error malformedPlatformMessage
    else
      buildEntries templ rest (srcImages ++ [buildEntry templ osArchArr])

/-- The call of `registry.PushManifestList` made by both actions (lines 55 and
117). -/
def pushCall (w : World) (c : Context) (yamlInput : YAMLInput) : PushCall :=
  { username := c.username
    password := c.password
    input := yamlInput
    ignoreMissing := c.ignoreMissing
    insecure := c.insecure
    plainHTTP := c.plainHTTP
    configPath := w.filepathJoin c.dockerCfg "config.json".toList }

/-- Lines 55-58 and 117-120: call the collaborator, end with `logrus.Fatal err`
when it returns an error. -/
def push (w : World) (c : Context) (yamlInput : YAMLInput) : Trace :=
  let call := pushCall w c yamlInput
  match w.PushManifestList call with
  | .error err => { calls := [call], exit := .fatalErr err }
  | .ok _ => { calls := [call], exit := .returned }

/-- Lines 82-121: the `Action` of `push from-args`. -/
def fromArgsAction (w : World) (c : Context) : Trace :=
  let platforms := c.platforms
  let templ := c.template
  let target := c.target
  let srcImages : List ManifestEntry := []
  if platforms.length = 0 ∨ templ.length = 0 ∨ target.length = 0 then
    { calls := [], exit := .fatal missingArgumentMessage }
  else
    let platformList := strings.Split platforms ",".toList
    match buildEntries templ platformList srcImages with
    | .error msg => { calls := [], exit := .fatal msg }
    | .ok srcImages =>
      let yamlInput : YAMLInput := { Image := target, Manifests := srcImages }
      push w c yamlInput

/-- Line 92: the elements of the platform list. -/
def platformList (c : Context) : List GoString :=
  strings.Split c.platforms ",".toList

/-- Line 95: the segments of one element of the platform list. -/
def segments (platform : GoString) : List GoString :=
  strings.Split platform "/".toList

/-- The element passes the check of line 96: it has 2 or 3 segments. -/
def wellFormed (platform : GoString) : Prop :=
  (segments platform).length = 2 ∨ (segments platform).length = 3

instance : DecidablePred wellFormed := fun platform =>
  inferInstanceAs (Decidable ((segments platform).length = 2 ∨ (segments platform).length = 3))

/-- The entry appended for one element of the platform list. -/
def entryOf (templ platform : GoString) : ManifestEntry :=
  buildEntry templ (segments platform)

/-- All three arguments are given and every element of the platform list passes
the check of line 96. -/
def accepted (c : Context) : Prop :=
  c.platforms ≠ [] ∧ c.template ≠ [] ∧ c.target ≠ [] ∧ ∀ p ∈ platformList c, wellFormed p

instance : DecidablePred accepted := fun c =>
  inferInstanceAs (Decidable
    (c.platforms ≠ [] ∧ c.template ≠ [] ∧ c.target ≠ [] ∧ ∀ p ∈ platformList c, wellFormed p))

/-! ## `push from-spec` -/

/-- Lines 38-59: the `Action` of `push from-spec`. -/
def fromSpecAction (w : World) (c : Context) : Trace :=
  let filePath := c.firstArg
  match w.filepathAbs filePath with
  | .error err =>
    { calls := [], exit := .fatalf "Can't resolve path to %q: %v".toList [filePath, err] }
  | .ok filename =>
    match w.readFile filename with
    | .error err =>
      { calls := [], exit := .fatalf "Can't read YAML file %q: %v".toList [filePath, err] }
    | .ok yamlFile =>
      match w.yamlUnmarshal yamlFile with
      | .error err =>
        { calls := [], exit := .fatalf "Can't unmarshal YAML file %q: %v".toList [filePath, err] }
      | .ok yamlInput => push w c yamlInput

/-! ## Specification vocabulary and sample inputs -/

/-- The `(os, arch, variant)` tuple an element of the platform list denotes: its
first, second and third segment, the third being empty when there is none. -/
def platformTuple (platform : GoString) : GoString × GoString × GoString :=
  ((segments platform).getD 0 [], (segments platform).getD 1 [], (segments platform).getD 2 [])

/-- The `(os, arch, variant)` tuple of an entry. -/
def entryTuple (e : ManifestEntry) : GoString × GoString × GoString :=
  (e.Platform.OS, e.Platform.Architecture, e.Platform.Variant)

/-- "`r` is `s` with the first occurrence of `old` replaced by `new`": either
`old` does not occur in `s` and `r` is `s` unchanged, or `s` is `pre ++ old ++
post` where no occurrence of `old` starts before the end of `pre`, and `r` is
`pre ++ new ++ post`. -/
def FirstOccurrenceReplaced {α : Type} (s old new r : List α) : Prop :=
  (¬ old <:+: s ∧ r = s) ∨
    ∃ pre post, s = pre ++ old ++ post ∧
      (∀ pre' post', s = pre' ++ old ++ post' → pre.length ≤ pre'.length) ∧
      r = pre ++ new ++ post

/-- The three placeholders of a template. -/
inductive Token where
  | arch
  | os
  | variant
deriving DecidableEq

/-- A unit of a marked template: a unit of text, or the mark that stands where a
placeholder was. -/
abbrev Marked := Char ⊕ Token

/-- Plain text as a marked string. -/
def lit (s : GoString) : List Marked :=
  s.map Sum.inl

/-- The text a unit of a marked template stands for. -/
def expand (os arch variant : GoString) : Marked → GoString
  | .inl ch => [ch]
  | .inr .arch => arch
  | .inr .os => os
  | .inr .variant => variant

/-- The text of a placeholder. -/
def tokenText : Token → GoString
  | .arch => "ARCH".toList
  | .os => "OS".toList
  | .variant => "VARIANT".toList

/-- The template text a unit of a marked template came from. -/
def erase : Marked → GoString
  | .inl ch => [ch]
  | .inr tok => tokenText tok

/-- Independent substitution, following the words "the template with at most
one occurrence of each of the tokens replaced by the corresponding platform
value and all other text left untouched, the text inserted for one token never
rewritten by the substitution of another": `r` is the expansion of a marking `m`
of the template, i.e. of the template with at most one occurrence of each token
turned into a mark; a mark is not text, so what is inserted for it is not
searched. -/
def IndependentSubstitution (templ os arch variant r : GoString) : Prop :=
  ∃ m : List Marked, m.flatMap erase = templ ∧
    (∀ tok, m.countP (fun x => decide (x = .inr tok)) ≤ 1) ∧
    r = m.flatMap (expand os arch variant)

/-- The marking of a template in which the first occurrence of each token is
turned into its mark. -/
def markTemplate (templ : GoString) : List Marked :=
  let m₁ := strings.Replace (lit templ) (lit "ARCH".toList) [.inr .arch] 1
  let m₂ := strings.Replace m₁ (lit "OS".toList) [.inr .os] 1
  strings.Replace m₂ (lit "VARIANT".toList) [.inr .variant] 1

/-- Independent substitution at the first occurrence of each token. -/
def independentResolve (templ os arch variant : GoString) : GoString :=
  (markTemplate templ).flatMap (expand os arch variant)

/-- One-pass form of `strings.Replace s old new 1`, used in the proofs. -/
def strings.replaceFirst {α : Type} [DecidableEq α] (old new : List α) : List α → List α
  | [] => if strings.HasPrefix [] old then new else []
  | c :: s =>
    if strings.HasPrefix (c :: s) old then new ++ (c :: s).drop old.length
    else c :: strings.replaceFirst old new s

/-- A world in which every collaborator succeeds; the decoded document is the
one with an empty target and `manifests: []`. -/
def sampleWorld : World :=
  { filepathAbs := fun path => .ok path
    readFile := fun _ => .ok []
    yamlUnmarshal := fun _ => .ok { Image := [], Manifests := [] }
    filepathJoin := fun dir file => if dir = [] then file else dir ++ "/".toList ++ file
    PushManifestList := fun _ => .ok ([], 0) }

/-- A `from-args` context with the three flags given and the others unset. -/
def argsContext (platforms templ target : String) : Context :=
  { firstArg := []
    platforms := platforms.toList
    template := templ.toList
    target := target.toList
    ignoreMissing := false
    username := []
    password := []
    insecure := false
    plainHTTP := false
    dockerCfg := [] }

/-- A `from-spec` context naming the file `path`. -/
def specContext (path : String) : Context :=
  { firstArg := path.toList
    platforms := []
    template := []
    target := []
    ignoreMissing := false
    username := []
    password := []
    insecure := false
    plainHTTP := false
    dockerCfg := [] }

/-- The entry `{image, os/arch}` without variant. -/
def mkEntry (image os arch : String) : ManifestEntry :=
  { Image := image.toList
    Platform :=
      { OS := os.toList, Architecture := arch.toList, Variant := [] } }

/-! ## Facts about the `strings` functions -/

namespace strings

variable {α : Type} [DecidableEq α]

theorem hasPrefix_iff (s p : List α) : HasPrefix s p = true ↔ p <+: s := by
  induction s generalizing p with
  | nil => cases p <;> simp [HasPrefix]
  | cons c s ih =>
    cases p with
    | nil => simp [HasPrefix]
    | cons d p =>
      simp only [HasPrefix, Bool.and_eq_true, decide_eq_true_eq, ih, List.cons_prefix_cons]
      constructor <;> rintro ⟨h1, h2⟩ <;> exact ⟨h1.symm, h2⟩

theorem index_some_split (s sub : List α) (i : Nat) (h : Index s sub = some i) :
    s = s.take i ++ sub ++ s.drop (i + sub.length) := by
  induction s generalizing i with
  | nil =>
    cases sub with
    | nil => simp
    | cons d p => simp [Index, HasPrefix] at h
  | cons c s ih =>
    unfold Index at h
    split at h
    · rename_i hp
      obtain ⟨t, ht⟩ := (hasPrefix_iff _ _).1 hp
      cases h
      rw [← ht]
      simp
    · cases hi : Index s sub with
      | none => simp [hi] at h
      | some j =>
        simp [hi] at h
        subst h
        have := ih j hi
        simp only [List.take_succ_cons, List.cons_append]
        rw [show j + 1 + sub.length = (j + sub.length) + 1 by omega, List.drop_succ_cons]
        exact congrArg (c :: ·) this

theorem index_some_le (s sub pre post : List α) (i : Nat) (h : Index s sub = some i)
    (hs : s = pre ++ sub ++ post) : i ≤ pre.length := by
  induction s generalizing i pre with
  | nil =>
    cases sub with
    | nil => simp [Index, HasPrefix] at h; omega
    | cons d p => simp [Index, HasPrefix] at h
  | cons c s ih =>
    unfold Index at h
    split at h
    · cases h; omega
    · rename_i hp
      cases pre with
      | nil =>
        exfalso
        apply hp
        rw [hasPrefix_iff, hs]
        simp
      | cons e pre =>
        cases hi : Index s sub with
        | none => simp [hi] at h
        | some j =>
          simp [hi] at h
          subst h
          simp only [List.cons_append, List.cons.injEq] at hs
          have := ih pre j hi hs.2
          simp
          exact this

theorem index_eq_none_iff (s sub : List α) : Index s sub = none ↔ ¬ sub <:+: s := by
  constructor
  · intro h
    induction s with
    | nil =>
      cases sub with
      | nil => simp [Index, HasPrefix] at h
      | cons d p => simp
    | cons c s ih =>
      unfold Index at h
      split at h
      · cases h
      · rename_i hp
        rw [List.infix_cons_iff, ← hasPrefix_iff]
        simp only [Option.map_eq_none'] at h
        exact fun hc => hc.elim hp (ih h)
  · intro h
    cases hi : Index s sub with
    | none => rfl
    | some i =>
      exfalso
      apply h
      have := index_some_split s sub i hi
      exact ⟨s.take i, s.drop (i + sub.length), this.symm⟩

theorem count_eq_zero_iff (s sub : List α) (hsub : sub ≠ []) :
    Count s sub = 0 ↔ Index s sub = none := by
  unfold Count
  rw [if_neg hsub]
  cases s with
  | nil =>
    cases sub with
    | nil => exact absurd rfl hsub
    | cons d p => simp [countLoop, Index, HasPrefix]
  | cons c s =>
    simp only [List.length_cons, countLoop]
    cases hi : Index (c :: s) sub <;> simp

theorem index_nil_of_ne_nil (sub : List α) (hsub : sub ≠ []) :
    Index ([] : List α) sub = none := by
  cases sub with
  | nil => exact absurd rfl hsub
  | cons d p => rfl

/-- The loop of `Count` gives the same result for every amount of fuel that is at
least the length of the string. -/
theorem countLoop_fuel_irrelevant (sub : List α) (hsub : sub ≠ []) (f g : Nat) (s : List α)
    (hf : s.length ≤ f) (hg : s.length ≤ g) : countLoop sub f s = countLoop sub g s := by
  induction f generalizing g s with
  | zero =>
    have hs : s = [] := List.length_eq_zero.1 (Nat.le_zero.1 hf)
    subst hs
    cases g with
    | zero => rfl
    | succ g => simp [countLoop, index_nil_of_ne_nil sub hsub]
  | succ f ih =>
    cases g with
    | zero =>
      have hs : s = [] := List.length_eq_zero.1 (Nat.le_zero.1 hg)
      subst hs
      simp [countLoop, index_nil_of_ne_nil sub hsub]
    | succ g =>
      simp only [countLoop]
      cases hi : Index s sub with
      | none => rfl
      | some i =>
        have hlen : 0 < sub.length := List.length_pos.2 hsub
        have hd : (s.drop (i + sub.length)).length ≤ s.length - 1 := by
          rw [List.length_drop]
          omega
        simp only
        rw [ih g _ (by omega) (by omega)]

/-- `s.length` iterations are enough for the loop of `Count`. -/
theorem countLoop_fuel (sub : List α) (hsub : sub ≠ []) (f : Nat) (s : List α)
    (hf : s.length ≤ f) : countLoop sub f s = Count s sub := by
  unfold Count
  rw [if_neg hsub]
  exact countLoop_fuel_irrelevant sub hsub f s.length s hf (Nat.le_refl _)

/-- One iteration of `Count`. -/
theorem count_step (s sub : List α) (hsub : sub ≠ []) :
    Count s sub =
      match Index s sub with
      | none => 0
      | some i => 1 + Count (s.drop (i + sub.length)) sub := by
  cases hi : Index s sub with
  | none => exact (count_eq_zero_iff s sub hsub).2 hi
  | some i =>
    have hlen : 0 < sub.length := List.length_pos.2 hsub
    cases s with
    | nil => rw [index_nil_of_ne_nil sub hsub] at hi; cases hi
    | cons c s =>
      have hd : ((c :: s).drop (i + sub.length)).length ≤ s.length := by
        rw [List.length_drop, List.length_cons]
        omega
      show Count (c :: s) sub = 1 + Count ((c :: s).drop (i + sub.length)) sub
      rw [← countLoop_fuel sub hsub s.length _ hd]
      unfold Count
      rw [if_neg hsub]
      simp only [List.length_cons, countLoop, hi]

/-- One iteration of `Split`: cut at the first separator and split the rest. -/
theorem split_step (s sep : List α) (hsep : sep ≠ []) :
    Split s sep =
      match Index s sep with
      | none => [s]
      | some m => s.take m :: Split (s.drop (m + sep.length)) sep := by
  unfold Split
  rw [count_step s sep hsep]
  cases hi : Index s sep with
  | none => rfl
  | some m =>
    simp only
    rw [Nat.add_comm 1]
    simp only [genSplitLoop, hi]

theorem split_ne_nil (s sep : List α) (hsep : sep ≠ []) : Split s sep ≠ [] := by
  rw [split_step s sep hsep]
  cases Index s sep <;> simp

/-- `Split` returns `Count s sep + 1` elements. -/
theorem length_split (s sep : List α) (hsep : sep ≠ []) :
    (Split s sep).length = Count s sep + 1 := by
  suffices H : ∀ (n : Nat) (s : List α), s.length = n →
      (Split s sep).length = Count s sep + 1 from H _ s rfl
  intro n
  induction n using Nat.strong_induction_on with
  | _ n ih =>
    intro s hn
    rw [split_step s sep hsep, count_step s sep hsep]
    cases hi : Index s sep with
    | none => rfl
    | some m =>
      have hlen : 0 < sep.length := List.length_pos.2 hsep
      have hsplit := index_some_split s sep m hi
      have hlt : (s.drop (m + sep.length)).length < n := by
        have := congrArg List.length hsplit
        simp only [List.length_append] at this
        rw [List.length_drop]
        omega
      show (s.take m :: Split (s.drop (m + sep.length)) sep).length =
        1 + Count (s.drop (m + sep.length)) sep + 1
      rw [List.length_cons, ih _ hlt _ rfl]
      omega

/-- Joining the elements of `Split s sep` with `sep` gives `s` back. -/
theorem intercalate_split (s sep : List α) (hsep : sep ≠ []) :
    List.intercalate sep (Split s sep) = s := by
  suffices H : ∀ (n : Nat) (s : List α), s.length = n →
      List.intercalate sep (Split s sep) = s from H _ s rfl
  intro n
  induction n using Nat.strong_induction_on with
  | _ n ih =>
    intro s hn
    rw [split_step s sep hsep]
    cases hi : Index s sep with
    | none => simp [List.intercalate]
    | some m =>
      have hlen : 0 < sep.length := List.length_pos.2 hsep
      have hsplit := index_some_split s sep m hi
      have hlt : (s.drop (m + sep.length)).length < n := by
        have := congrArg List.length hsplit
        simp only [List.length_append] at this
        rw [List.length_drop]
        omega
      have hrec := ih _ hlt _ rfl
      simp only
      obtain ⟨b, rest, hb⟩ := List.exists_cons_of_ne_nil
        (split_ne_nil (s.drop (m + sep.length)) sep hsep)
      rw [hb] at hrec ⊢
      have hcons : List.intercalate sep (s.take m :: b :: rest) =
          s.take m ++ sep ++ List.intercalate sep (b :: rest) := by
        simp [List.intercalate, List.intersperse]
      rw [hcons, hrec]
      exact hsplit.symm

/-- No element of `Split s sep` contains the separator. -/
theorem not_infix_of_mem_split (s sep seg : List α) (hsep : sep ≠ [])
    (hseg : seg ∈ Split s sep) : ¬ sep <:+: seg := by
  suffices H : ∀ (n : Nat) (s : List α), s.length = n → seg ∈ Split s sep →
      ¬ sep <:+: seg from H _ s rfl hseg
  intro n
  induction n using Nat.strong_induction_on with
  | _ n ih =>
    intro s hn hseg
    rw [split_step s sep hsep] at hseg
    cases hi : Index s sep with
    | none =>
      rw [hi] at hseg
      rw [List.mem_singleton.1 hseg]
      exact (index_eq_none_iff s sep).1 hi
    | some m =>
      rw [hi] at hseg
      have hlen : 0 < sep.length := List.length_pos.2 hsep
      have hsplit := index_some_split s sep m hi
      rcases List.mem_cons.1 hseg with rfl | hrest
      · rintro ⟨pre, post, hpp⟩
        have hs : s = pre ++ sep ++ (post ++ s.drop m) := by
          conv_lhs => rw [← List.take_append_drop m s, ← hpp]
          simp
        have hle := index_some_le s sep pre _ m hi hs
        have := congrArg List.length hpp
        simp only [List.length_append, List.length_take] at this
        omega
      · have hlt : (s.drop (m + sep.length)).length < n := by
          have := congrArg List.length hsplit
          simp only [List.length_append] at this
          rw [List.length_drop]
          omega
        exact ih _ hlt _ rfl hrest

/-- `Replace` with `n = 1` replaces the first occurrence found by `Index`. -/
theorem replace_one (s old new : List α) (hold : old ≠ []) :
    Replace s old new 1 =
      match Index s old with
      | none => s
      | some j => s.take j ++ new ++ s.drop (j + old.length) := by
  unfold Replace
  by_cases hon : old = new
  · subst hon
    simp only [true_or, if_true]
    cases hi : Index s old with
    | none => rfl
    | some j => exact index_some_split s old j hi
  · have h1 : ¬ (old = new ∨ (1 : Int) = 0) := by simp [hon]
    rw [if_neg h1]
    cases hi : Index s old with
    | none =>
      have := (count_eq_zero_iff s old hold).2 hi
      simp [this]
    | some j =>
      have hc : Count s old ≠ 0 := by
        intro h0
        rw [count_eq_zero_iff s old hold, hi] at h0
        cases h0
      have hn : ¬ ((1 : Int) < 0 ∨ ((Count s old : Nat) : Int) < 1) := by omega
      simp only [hc, if_false, hn, Int.toNat_one, replaceLoop, hi]

end strings

/-! ## Facts about the actions -/

theorem buildEntries_ok (templ : GoString) (l : List GoString) (srcImages : List ManifestEntry)
    (h : ∀ p ∈ l, wellFormed p) :
    buildEntries templ l srcImages = .ok (srcImages ++ l.map (entryOf templ)) := by
  induction l generalizing srcImages with
  | nil => simp [buildEntries]
  | cons p l ih =>
    have hp : wellFormed p := h p (List.mem_cons_self _ _)
    have hc : ¬ ((strings.Split p "/".toList).length ≠ 2 ∧
        (strings.Split p "/".toList).length ≠ 3) := by
      rcases hp with h2 | h3
      · exact fun hn => hn.1 h2
      · exact fun hn => hn.2 h3
    rw [buildEntries]
    simp only [hc, if_false]
    rw [ih _ (fun q hq => h q (List.mem_cons_of_mem _ hq))]
    simp [entryOf, segments]

theorem buildEntries_error (templ : GoString) (l : List GoString)
    (srcImages : List ManifestEntry) (h : ∃ p ∈ l, ¬ wellFormed p) :
    buildEntries templ l srcImages = .error malformedPlatformMessage := by
  induction l generalizing srcImages with
  | nil => obtain ⟨p, hp, _⟩ := h; cases hp
  | cons q l ih =>
    rw [buildEntries]
    by_cases hq : wellFormed q
    · have hc : ¬ ((strings.Split q "/".toList).length ≠ 2 ∧
          (strings.Split q "/".toList).length ≠ 3) := by
        rcases hq with h2 | h3
        · exact fun hn => hn.1 h2
        · exact fun hn => hn.2 h3
      simp only [hc, if_false]
      apply ih
      obtain ⟨p, hp, hn⟩ := h
      rcases List.mem_cons.1 hp with rfl | hp
      · exact absurd hq hn
      · exact ⟨p, hp, hn⟩
    · have hc : (strings.Split q "/".toList).length ≠ 2 ∧
          (strings.Split q "/".toList).length ≠ 3 :=
        ⟨fun h2 => hq (Or.inl h2), fun h3 => hq (Or.inr h3)⟩
      rw [if_pos hc]

theorem fromArgs_missing (w : World) (c : Context)
    (h : c.platforms = [] ∨ c.template = [] ∨ c.target = []) :
    fromArgsAction w c = { calls := [], exit := .fatal missingArgumentMessage } := by
  have hc : c.platforms.length = 0 ∨ c.template.length = 0 ∨ c.target.length = 0 := by
    simpa only [List.length_eq_zero] using h
  unfold fromArgsAction
  dsimp only
  rw [if_pos hc]

theorem fromArgs_malformed (w : World) (c : Context)
    (hP : c.platforms ≠ []) (hT : c.template ≠ []) (hG : c.target ≠ [])
    (h : ∃ p ∈ platformList c, ¬ wellFormed p) :
    fromArgsAction w c = { calls := [], exit := .fatal malformedPlatformMessage } := by
  have hc : ¬ (c.platforms.length = 0 ∨ c.template.length = 0 ∨ c.target.length = 0) := by
    simp only [List.length_eq_zero, hP, hT, hG, or_self, not_false_eq_true]
  have := buildEntries_error c.template (platformList c) [] h
  unfold platformList at this
  unfold fromArgsAction
  dsimp only
  rw [if_neg hc, this]

theorem fromArgs_accepted (w : World) (c : Context) (h : accepted c) :
    fromArgsAction w c =
      push w c { Image := c.target, Manifests := (platformList c).map (entryOf c.template) } := by
  obtain ⟨hP, hT, hG, hW⟩ := h
  have hc : ¬ (c.platforms.length = 0 ∨ c.template.length = 0 ∨ c.target.length = 0) := by
    simp only [List.length_eq_zero, hP, hT, hG, or_self, not_false_eq_true]
  have := buildEntries_ok c.template (platformList c) [] hW
  unfold platformList at this
  unfold fromArgsAction
  dsimp only
  rw [if_neg hc, this]
  rfl

/-- An empty platform list has the single element `""`, which has one segment. -/
theorem not_wellFormed_of_platforms_nil (c : Context) (h : c.platforms = []) :
    ∃ p ∈ platformList c, ¬ wellFormed p := by
  refine ⟨[], ?_, by decide⟩
  unfold platformList
  rw [h]
  decide

theorem push_calls (w : World) (c : Context) (yamlInput : YAMLInput) :
    (push w c yamlInput).calls = [pushCall w c yamlInput] := by
  cases h : w.PushManifestList (pushCall w c yamlInput) <;> simp only [push, h]

theorem push_exit (w : World) (c : Context) (yamlInput : YAMLInput) :
    ((push w c yamlInput).exit = .returned ∧
        ∃ r, w.PushManifestList (pushCall w c yamlInput) = .ok r) ∨
      ∃ err, w.PushManifestList (pushCall w c yamlInput) = .error err ∧
        (push w c yamlInput).exit = .fatalErr err := by
  cases h : w.PushManifestList (pushCall w c yamlInput) with
  | error err => exact Or.inr ⟨err, rfl, by simp only [push, h]⟩
  | ok r => exact Or.inl ⟨by simp only [push, h], r, rfl⟩

/-- For a list of 2 or 3 segments the variant chosen by lines 99-103 is the third
segment, or the empty string when there is none. -/
theorem variant_eq_getD (l : List GoString) (h : l.length = 2 ∨ l.length = 3) :
    (if l.length = 3 then l.getD 2 [] else []) = l.getD 2 [] := by
  rcases h with h | h
  · match l, h with
    | [_, _], _ => rfl
  · rw [if_pos h]

theorem entryTuple_entryOf (templ p : GoString) (h : wellFormed p) :
    entryTuple (entryOf templ p) = platformTuple p := by
  simp only [entryTuple, entryOf, buildEntry, platformTuple, variant_eq_getD _ h]

theorem platform_entryOf (templ p : GoString) (h : wellFormed p) :
    (entryOf templ p).Platform =
      { OS := (platformTuple p).1, Architecture := (platformTuple p).2.1,
        Variant := (platformTuple p).2.2 } := by
  simp only [entryOf, buildEntry, platformTuple, variant_eq_getD _ h]

theorem fromArgs_accepted_calls (w : World) (c : Context) (h : accepted c) :
    (fromArgsAction w c).calls =
      [pushCall w c
        { Image := c.target, Manifests := (platformList c).map (entryOf c.template) }] := by
  rw [fromArgs_accepted w c h, push_calls]

theorem fromArgs_accepted_exit (w : World) (c : Context) (h : accepted c) (msg : GoString) :
    (fromArgsAction w c).exit ≠ .fatal msg := by
  rw [fromArgs_accepted w c h]
  intro hexit
  rcases push_exit w c
    { Image := c.target, Manifests := (platformList c).map (entryOf c.template) } with
    ⟨h, -⟩ | ⟨err, -, h⟩
  · rw [h] at hexit; cases hexit
  · rw [h] at hexit; cases hexit

theorem strings.replace_one_of_not_infix {α : Type} [DecidableEq α] (s old new : List α)
    (hold : old ≠ []) (h : ¬ old <:+: s) : strings.Replace s old new 1 = s := by
  rw [strings.replace_one _ _ _ hold, (strings.index_eq_none_iff s old).2 h]

theorem strings.replace_one_spec {α : Type} [DecidableEq α] (s old new : List α)
    (hold : old ≠ []) : FirstOccurrenceReplaced s old new (strings.Replace s old new 1) := by
  rw [strings.replace_one _ _ _ hold]
  cases hi : strings.Index s old with
  | none => exact Or.inl ⟨(strings.index_eq_none_iff s old).1 hi, rfl⟩
  | some j =>
    refine Or.inr ⟨s.take j, s.drop (j + old.length), strings.index_some_split s old j hi, ?_, rfl⟩
    intro pre post hs
    have hle := strings.index_some_le s old pre post j hi hs
    rw [List.length_take]
    omega

/-- The relation `FirstOccurrenceReplaced` determines its result. -/
theorem firstOccurrenceReplaced_unique {α : Type} (s old new r r' : List α)
    (h : FirstOccurrenceReplaced s old new r) (h' : FirstOccurrenceReplaced s old new r') :
    r = r' := by
  rcases h with ⟨hn, rfl⟩ | ⟨pre, post, hs, hmin, rfl⟩
  · rcases h' with ⟨-, rfl⟩ | ⟨pre', post', hs', -, -⟩
    · rfl
    · exact absurd ⟨pre', post', hs'.symm⟩ hn
  · rcases h' with ⟨hn, -⟩ | ⟨pre', post', hs', hmin', rfl⟩
    · exact absurd ⟨pre, post, hs.symm⟩ hn
    · have hlen : pre.length = pre'.length :=
        Nat.le_antisymm (hmin pre' post' hs') (hmin' pre post hs)
      have heq : pre ++ (old ++ post) = pre' ++ (old ++ post') := by
        rw [← List.append_assoc, ← List.append_assoc, ← hs, ← hs']
      obtain ⟨hpre, hrest⟩ := List.append_inj heq hlen
      rw [hpre, List.append_cancel_left hrest]

/-! ## One-pass replacement and marked templates -/

namespace strings

variable {α β : Type} [DecidableEq α] [DecidableEq β]

theorem replaceFirst_of_hasPrefix (old new s : List α) (h : HasPrefix s old = true) :
    replaceFirst old new s = new ++ s.drop old.length := by
  cases s with
  | nil =>
    cases old with
    | nil => simp [replaceFirst, HasPrefix]
    | cons d p => simp [HasPrefix] at h
  | cons c s => simp only [replaceFirst, h, if_true]

theorem replaceFirst_cons_of_not_hasPrefix (old new : List α) (c : α) (s : List α)
    (h : HasPrefix (c :: s) old = false) :
    replaceFirst old new (c :: s) = c :: replaceFirst old new s := by
  simp [replaceFirst, h]

theorem hasPrefix_nil_of_ne_nil (old : List α) (hold : old ≠ []) :
    HasPrefix ([] : List α) old = false := by
  cases old with
  | nil => exact absurd rfl hold
  | cons d p => rfl

theorem hasPrefix_cons_of_not_mem (y : α) (s old : List α) (hold : old ≠ [])
    (hy : y ∉ old) : HasPrefix (y :: s) old = false := by
  cases old with
  | nil => exact absurd rfl hold
  | cons d p =>
    have : y ≠ d := fun h => hy (h ▸ List.mem_cons_self _ _)
    simp [HasPrefix, this]

theorem replace_one_eq_replaceFirst (s old new : List α) (hold : old ≠ []) :
    Replace s old new 1 = replaceFirst old new s := by
  induction s with
  | nil =>
    rw [replace_one _ _ _ hold]
    simp [Index, replaceFirst, hasPrefix_nil_of_ne_nil old hold]
  | cons c s ih =>
    rw [replace_one _ _ _ hold] at ih ⊢
    by_cases hp : HasPrefix (c :: s) old = true
    · have hi : Index (c :: s) old = some 0 := by simp [Index, hp]
      rw [hi, replaceFirst_of_hasPrefix _ _ _ hp]
      simp
    · have hp' : HasPrefix (c :: s) old = false := by simpa using hp
      rw [replaceFirst_cons_of_not_hasPrefix _ _ _ _ hp', ← ih]
      cases hj : Index s old with
      | none =>
        have hi : Index (c :: s) old = none := by simp [Index, hp', hj]
        rw [hi]
      | some j =>
        have hi : Index (c :: s) old = some (j + 1) := by simp [Index, hp', hj]
        rw [hi]
        simp only [List.take_succ_cons, List.cons_append]
        rw [show j + 1 + old.length = (j + old.length) + 1 by omega, List.drop_succ_cons]

theorem mem_replaceFirst (old new s : List α) (x : α) (h : x ∈ replaceFirst old new s) :
    x ∈ s ∨ x ∈ new := by
  induction s with
  | nil =>
    unfold replaceFirst at h
    split at h
    · exact Or.inr h
    · exact Or.inl h
  | cons c s ih =>
    by_cases hp : HasPrefix (c :: s) old = true
    · rw [replaceFirst_of_hasPrefix _ _ _ hp, List.mem_append] at h
      exact h.symm.imp List.mem_of_mem_drop id
    · have hp' : HasPrefix (c :: s) old = false := by simpa using hp
      rw [replaceFirst_cons_of_not_hasPrefix _ _ _ _ hp', List.mem_cons] at h
      rcases h with rfl | h
      · exact Or.inl (List.mem_cons_self _ _)
      · exact (ih h).imp (List.mem_cons_of_mem _) id

theorem replaceFirst_append_of_not_mem (old new pre rest : List α) (hold : old ≠ [])
    (hpre : ∀ y ∈ pre, y ∉ old) :
    replaceFirst old new (pre ++ rest) = pre ++ replaceFirst old new rest := by
  induction pre with
  | nil => rfl
  | cons y pre ih =>
    rw [List.cons_append, replaceFirst_cons_of_not_hasPrefix _ _ _ _
      (hasPrefix_cons_of_not_mem y _ old hold (hpre y (List.mem_cons_self _ _))),
      ih (fun z hz => hpre z (List.mem_cons_of_mem _ hz)), List.cons_append]

theorem flatMap_keep {γ : Type} (σ : γ → List γ) (l : List γ) (h : ∀ y ∈ l, σ y = [y]) :
    l.flatMap σ = l := by
  induction l with
  | nil => rfl
  | cons y l ih =>
    rw [List.flatMap_cons, h y (List.mem_cons_self _ _),
      ih (fun z hz => h z (List.mem_cons_of_mem _ hz))]
    rfl

/-- Expanding units of `m` does not change whether `m` begins with `old`, when
the units of `old` are kept and every expanded unit becomes a non-empty text
without units of `old`. -/
theorem hasPrefix_flatMap (σ : α → List α) (old m : List α)
    (hkeep : ∀ y ∈ old, σ y = [y])
    (hm : ∀ x ∈ m, σ x = [x] ∨ (σ x ≠ [] ∧ ∀ y ∈ σ x, y ∉ old)) :
    HasPrefix (m.flatMap σ) old = HasPrefix m old := by
  induction old generalizing m with
  | nil => simp [HasPrefix]
  | cons o old ih =>
    cases m with
    | nil => rfl
    | cons x m =>
      rw [List.flatMap_cons]
      by_cases hx : σ x = [x]
      · rw [hx]
        show (decide (x = o) && HasPrefix (m.flatMap σ) old) =
          (decide (x = o) && HasPrefix m old)
        rw [ih m (fun y hy => hkeep y (List.mem_cons_of_mem _ hy))]
        intro z hz
        exact (hm z (List.mem_cons_of_mem _ hz)).imp id
          (fun h => ⟨h.1, fun y hy hmem => h.2 y hy (List.mem_cons_of_mem _ hmem)⟩)
      · obtain ⟨hne, hnot⟩ := (hm x (List.mem_cons_self _ _)).resolve_left hx
        have hxo : x ≠ o := by
          rintro rfl
          exact hx (hkeep x (List.mem_cons_self _ _))
        cases hσ : σ x with
        | nil => exact absurd hσ hne
        | cons y ys =>
          have hyo : y ≠ o := by
            rintro rfl
            exact hnot y (by rw [hσ]; exact List.mem_cons_self _ _) (List.mem_cons_self _ _)
          simp [HasPrefix, hxo, hyo]

/-- Replacing the first occurrence of `old` commutes with expanding units, under
the conditions of `hasPrefix_flatMap`. -/
theorem replaceFirst_flatMap (σ : α → List α) (old new m : List α) (hold : old ≠ [])
    (hkeep : ∀ y ∈ old, σ y = [y])
    (hm : ∀ x ∈ m, σ x = [x] ∨ (σ x ≠ [] ∧ ∀ y ∈ σ x, y ∉ old)) :
    (replaceFirst old new m).flatMap σ = replaceFirst old (new.flatMap σ) (m.flatMap σ) := by
  induction m with
  | nil => simp [replaceFirst, hasPrefix_nil_of_ne_nil old hold]
  | cons x m ih =>
    have hP := hasPrefix_flatMap σ old (x :: m) hkeep hm
    by_cases hp : HasPrefix (x :: m) old = true
    · rw [replaceFirst_of_hasPrefix _ _ _ hp, replaceFirst_of_hasPrefix _ _ _ (hP.trans hp),
        List.flatMap_append]
      congr 1
      obtain ⟨t, ht⟩ := (hasPrefix_iff _ _).1 hp
      rw [← ht, List.flatMap_append, flatMap_keep σ old hkeep, List.drop_left, List.drop_left]
    · have hp' : HasPrefix (x :: m) old = false := by simpa using hp
      rw [hp'] at hP
      rw [replaceFirst_cons_of_not_hasPrefix _ _ _ _ hp', List.flatMap_cons,
        ih (fun z hz => hm z (List.mem_cons_of_mem _ hz)), List.flatMap_cons]
      by_cases hx : σ x = [x]
      · rw [List.flatMap_cons, hx] at hP
        rw [hx]
        exact (replaceFirst_cons_of_not_hasPrefix _ _ _ _ hP).symm
      · obtain ⟨-, hnot⟩ := (hm x (List.mem_cons_self _ _)).resolve_left hx
        exact (replaceFirst_append_of_not_mem old _ (σ x) _ hold hnot).symm

theorem hasPrefix_map (f : α → β) (hf : Function.Injective f) (s p : List α) :
    HasPrefix (s.map f) (p.map f) = HasPrefix s p := by
  induction s generalizing p with
  | nil => cases p <;> rfl
  | cons c s ih =>
    cases p with
    | nil => rfl
    | cons d p => simp [HasPrefix, ih, hf.eq_iff]

theorem replaceFirst_map (f : α → β) (hf : Function.Injective f) (old new s : List α) :
    replaceFirst (old.map f) (new.map f) (s.map f) = (replaceFirst old new s).map f := by
  induction s with
  | nil =>
    have := hasPrefix_map f hf [] old
    simp only [List.map_nil] at this
    simp only [List.map_nil, replaceFirst, this]
    split <;> rfl
  | cons c s ih =>
    have := hasPrefix_map f hf (c :: s) old
    by_cases hp : HasPrefix (c :: s) old = true
    · rw [replaceFirst_of_hasPrefix _ _ _ hp, replaceFirst_of_hasPrefix _ _ _ (this.trans hp)]
      simp [List.map_drop]
    · have hp' : HasPrefix (c :: s) old = false := by simpa using hp
      rw [hp'] at this
      rw [replaceFirst_cons_of_not_hasPrefix _ _ _ _ hp', List.map_cons,
        replaceFirst_cons_of_not_hasPrefix _ _ _ _ this, ih, List.map_cons]

end strings

theorem mem_lit (s : GoString) (x : Marked) (h : x ∈ lit s) : ∃ ch ∈ s, x = .inl ch := by
  obtain ⟨ch, hch, rfl⟩ := List.mem_map.1 h
  exact ⟨ch, hch, rfl⟩

theorem lit_expand_keep (os arch variant s : GoString) :
    ∀ y ∈ lit s, lit (expand os arch variant y) = [y] := by
  intro y hy
  obtain ⟨ch, -, rfl⟩ := mem_lit s y hy
  rfl

/-- A value that is non-empty and shares no character with `old` expands, as a
mark, to a non-empty text without units of `old`. -/
theorem lit_value_barrier (value old : GoString) (hne : value ≠ [])
    (hdisj : ∀ ch ∈ value, ch ∉ old) :
    lit value ≠ [] ∧ ∀ y ∈ lit value, y ∉ lit old := by
  refine ⟨by simpa [lit] using hne, fun y hy hmem => ?_⟩
  obtain ⟨ch, hch, rfl⟩ := mem_lit value y hy
  obtain ⟨ch', hch', heq⟩ := mem_lit old _ hmem
  cases heq
  exact hdisj ch hch hch'

/-- Sequential and independent substitution agree when the values inserted for
ARCH and OS are non-empty and contain no character of a token searched
later. -/
theorem resolveImage_eq_independentResolve (templ os arch variant : GoString)
    (hos : os ≠ []) (harch : arch ≠ [])
    (harchOS : ∀ ch ∈ arch, ch ∉ "OS".toList)
    (harchV : ∀ ch ∈ arch, ch ∉ "VARIANT".toList)
    (hosV : ∀ ch ∈ os, ch ∉ "VARIANT".toList) :
    resolveImage templ os arch variant = independentResolve templ os arch variant := by
  have hinj : Function.Injective (Sum.inl : Char → Marked) := Sum.inl_injective
  have hA : lit "ARCH".toList ≠ [] := by decide
  have hO : lit "OS".toList ≠ [] := by decide
  have hV : lit "VARIANT".toList ≠ [] := by decide
  apply List.map_injective_iff.2 hinj
  show lit (resolveImage templ os arch variant) = lit (independentResolve templ os arch variant)
  unfold resolveImage independentResolve markTemplate
  simp only [strings.replace_one_eq_replaceFirst _ _ _ hA,
    strings.replace_one_eq_replaceFirst _ _ _ hO, strings.replace_one_eq_replaceFirst _ _ _ hV,
    strings.replace_one_eq_replaceFirst _ "ARCH".toList _ (by decide),
    strings.replace_one_eq_replaceFirst _ "OS".toList _ (by decide),
    strings.replace_one_eq_replaceFirst _ "VARIANT".toList _ (by decide)]
  -- the marked strings after each step
  generalize hm₁ : strings.replaceFirst (lit "ARCH".toList) [Sum.inr Token.arch] (lit templ) = m₁
  generalize hm₂ : strings.replaceFirst (lit "OS".toList) [Sum.inr Token.os] m₁ = m₂
  have hmem₁ : ∀ x ∈ m₁, (∃ ch, x = Sum.inl ch) ∨ x = Sum.inr Token.arch := by
    intro x hx
    rw [← hm₁] at hx
    rcases strings.mem_replaceFirst _ _ _ _ hx with h | h
    · obtain ⟨ch, -, rfl⟩ := mem_lit _ _ h
      exact Or.inl ⟨ch, rfl⟩
    · exact Or.inr (List.mem_singleton.1 h)
  have hmem₂ : ∀ x ∈ m₂,
      (∃ ch, x = Sum.inl ch) ∨ x = Sum.inr Token.arch ∨ x = Sum.inr Token.os := by
    intro x hx
    rw [← hm₂] at hx
    rcases strings.mem_replaceFirst _ _ _ _ hx with h | h
    · exact (hmem₁ x h).imp id Or.inl
    · exact Or.inr (Or.inr (List.mem_singleton.1 h))
  let σ : Marked → List Marked := fun x => lit (expand os arch variant x)
  have hσ : ∀ m : List Marked, lit (m.flatMap (expand os arch variant)) = m.flatMap σ :=
    fun m => List.map_flatMap _ _ m
  have h₁ : m₁.flatMap σ = strings.replaceFirst (lit "ARCH".toList) (lit arch) (lit templ) := by
    rw [← hm₁, strings.replaceFirst_flatMap σ _ _ _ hA (lit_expand_keep os arch variant _)
      (fun x hx => Or.inl (lit_expand_keep os arch variant _ x hx)),
      strings.flatMap_keep σ _ (lit_expand_keep os arch variant templ)]
    simp [σ, expand]
  have h₂ : m₂.flatMap σ = strings.replaceFirst (lit "OS".toList) (lit os) (m₁.flatMap σ) := by
    rw [← hm₂, strings.replaceFirst_flatMap σ _ _ _ hO (lit_expand_keep os arch variant _)]
    · simp [σ, expand]
    · intro x hx
      rcases hmem₁ x hx with ⟨ch, rfl⟩ | rfl
      · exact Or.inl rfl
      · exact Or.inr (lit_value_barrier arch _ harch harchOS)
  have h₃ : (strings.replaceFirst (lit "VARIANT".toList) [Sum.inr Token.variant] m₂).flatMap σ =
      strings.replaceFirst (lit "VARIANT".toList) (lit variant) (m₂.flatMap σ) := by
    rw [strings.replaceFirst_flatMap σ _ _ _ hV (lit_expand_keep os arch variant _)]
    · simp [σ, expand]
    · intro x hx
      rcases hmem₂ x hx with ⟨ch, rfl⟩ | rfl | rfl
      · exact Or.inl rfl
      · exact Or.inr (lit_value_barrier arch _ harch harchV)
      · exact Or.inr (lit_value_barrier os _ hos hosV)
  rw [hσ, h₃, h₂, h₁]
  simp only [lit, strings.replaceFirst_map _ hinj]

theorem lit_flatMap_erase (s : GoString) : (lit s).flatMap erase = s := by
  induction s with
  | nil => rfl
  | cons ch s ih =>
    have : lit (ch :: s) = Sum.inl ch :: lit s := rfl
    rw [this, List.flatMap_cons, ih]
    rfl

/-- Turning an occurrence of `old` into a mark that erases to `old` does not
change what the string erases to. -/
theorem erase_replaceFirst (old : GoString) (tok : Token) (m : List Marked)
    (h : tokenText tok = old) :
    (strings.replaceFirst (lit old) [.inr tok] m).flatMap erase = m.flatMap erase := by
  induction m with
  | nil =>
    cases old with
    | nil => cases tok <;> cases h
    | cons d p => rfl
  | cons x m ih =>
    by_cases hp : strings.HasPrefix (x :: m) (lit old) = true
    · rw [strings.replaceFirst_of_hasPrefix _ _ _ hp]
      obtain ⟨t, ht⟩ := (strings.hasPrefix_iff _ _).1 hp
      rw [← ht, List.drop_left, List.flatMap_append, List.flatMap_append]
      congr 1
      rw [lit_flatMap_erase, List.flatMap_cons, List.flatMap_nil, List.append_nil]
      exact h
    · have hp' : strings.HasPrefix (x :: m) (lit old) = false := by simpa using hp
      rw [strings.replaceFirst_cons_of_not_hasPrefix _ _ _ _ hp', List.flatMap_cons, ih,
        List.flatMap_cons]

theorem strings.countP_replaceFirst_le {α : Type} [DecidableEq α] (old new s : List α)
    (q : α → Bool) :
    (strings.replaceFirst old new s).countP q ≤ s.countP q + new.countP q := by
  induction s with
  | nil =>
    unfold strings.replaceFirst
    split <;> simp
  | cons c s ih =>
    by_cases hp : strings.HasPrefix (c :: s) old = true
    · rw [strings.replaceFirst_of_hasPrefix _ _ _ hp, List.countP_append]
      have := (List.drop_sublist old.length (c :: s)).countP_le q
      omega
    · have hp' : strings.HasPrefix (c :: s) old = false := by simpa using hp
      rw [strings.replaceFirst_cons_of_not_hasPrefix _ _ _ _ hp', List.countP_cons,
        List.countP_cons]
      omega

theorem markTemplate_erase (templ : GoString) : (markTemplate templ).flatMap erase = templ := by
  unfold markTemplate
  simp only [strings.replace_one_eq_replaceFirst _ (lit "ARCH".toList) _ (by decide),
    strings.replace_one_eq_replaceFirst _ (lit "OS".toList) _ (by decide),
    strings.replace_one_eq_replaceFirst _ (lit "VARIANT".toList) _ (by decide)]
  rw [erase_replaceFirst "VARIANT".toList .variant _ rfl,
    erase_replaceFirst "OS".toList .os _ rfl, erase_replaceFirst "ARCH".toList .arch _ rfl,
    lit_flatMap_erase]

theorem markTemplate_count (templ : GoString) (tok : Token) :
    (markTemplate templ).countP (fun x => decide (x = .inr tok)) ≤ 1 := by
  unfold markTemplate
  simp only [strings.replace_one_eq_replaceFirst _ (lit "ARCH".toList) _ (by decide),
    strings.replace_one_eq_replaceFirst _ (lit "OS".toList) _ (by decide),
    strings.replace_one_eq_replaceFirst _ (lit "VARIANT".toList) _ (by decide)]
  generalize hq : (fun x : Marked => decide (x = .inr tok)) = q
  have h₀ : (lit templ).countP q = 0 := by
    rw [List.countP_eq_zero]
    intro x hmem
    obtain ⟨ch, -, rfl⟩ := mem_lit _ _ hmem
    simp [← hq]
  have hsum : ([Sum.inr Token.arch] : List Marked).countP q +
      ([Sum.inr Token.os] : List Marked).countP q +
      ([Sum.inr Token.variant] : List Marked).countP q ≤ 1 := by
    rw [← hq]
    cases tok <;> decide
  have h₁ := strings.countP_replaceFirst_le (lit "ARCH".toList) [Sum.inr Token.arch]
    (lit templ) q
  generalize strings.replaceFirst (lit "ARCH".toList) [Sum.inr Token.arch] (lit templ) = m₁
    at h₁ ⊢
  have h₂ := strings.countP_replaceFirst_le (lit "OS".toList) [Sum.inr Token.os] m₁ q
  generalize strings.replaceFirst (lit "OS".toList) [Sum.inr Token.os] m₁ = m₂ at h₂ ⊢
  have h₃ := strings.countP_replaceFirst_le (lit "VARIANT".toList) [Sum.inr Token.variant] m₂ q
  omega

/-! ## The claims -/

/-- C1: for a non-empty template and target and a platform list all of whose
comma-separated elements split on "/" into 2 or 3 segments, from-args hands over
exactly one entry per element, in the order of the list, and the platform of the
entry of an element has OS = first segment, Architecture = second segment,
Variant = third segment (empty when there are only two). -/
theorem fromArgs_one_entry_per_element (w : World) (c : Context)
    (hT : c.template ≠ []) (hG : c.target ≠ [])
    (hW : ∀ p ∈ strings.Split c.platforms ",".toList,
      (strings.Split p "/".toList).length = 2 ∨ (strings.Split p "/".toList).length = 3) :
    ∃ call, (fromArgsAction w c).calls = [call] ∧
      call.input.Manifests.length = (strings.Split c.platforms ",".toList).length ∧
      call.input.Manifests.map
          (fun e => (e.Platform.OS, e.Platform.Architecture, e.Platform.Variant)) =
        (strings.Split c.platforms ",".toList).map (fun p =>
          ((strings.Split p "/".toList).getD 0 [], (strings.Split p "/".toList).getD 1 [],
            (strings.Split p "/".toList).getD 2 [])) := by
  have hP : c.platforms ≠ [] := by
    intro h0
    obtain ⟨p, hp, hn⟩ := not_wellFormed_of_platforms_nil c h0
    exact hn (hW p hp)
  have hacc : accepted c := ⟨hP, hT, hG, hW⟩
  refine ⟨_, by rw [fromArgs_accepted w c hacc, push_calls], ?_, ?_⟩
  · simp [pushCall, platformList]
  · simp only [pushCall, List.map_map]
    apply List.map_congr_left
    intro p hp
    exact entryTuple_entryOf c.template p (hW p hp)

/-- Witness of C1: the scenario `linux/amd64,linux/arm64`, `myimage-ARCH`,
`myimage`. -/
theorem fromArgs_one_entry_per_element_witness :
    (fromArgsAction sampleWorld
        (argsContext "linux/amd64,linux/arm64" "myimage-ARCH" "myimage")).calls.map
        (fun call => call.input) =
      [{ Image := "myimage".toList
         Manifests := [mkEntry "myimage-amd64" "linux" "amd64",
           mkEntry "myimage-arm64" "linux" "arm64"] }] ∧
    ∃ call, (fromArgsAction sampleWorld
        (argsContext "linux/amd64,linux/arm64" "myimage-ARCH" "myimage")).calls = [call] ∧
      call.input.Manifests.length = 2 ∧
      call.input.Manifests.map
          (fun e => (e.Platform.OS, e.Platform.Architecture, e.Platform.Variant)) =
        [("linux".toList, "amd64".toList, []), ("linux".toList, "arm64".toList, [])] :=
  ⟨by decide,
    fromArgs_one_entry_per_element sampleWorld
      (argsContext "linux/amd64,linux/arm64" "myimage-ARCH" "myimage")
      (by decide) (by decide) (by decide)⟩

/-- C3: from-args calls the collaborator exactly once, with Image = target, with
the complete list of entries built from the platform list and with the
ignore-missing flag unchanged, if and only if the three arguments are non-empty
and every element of the platform list has 2 or 3 segments; in every other case
it ends with a fatal message and without any call. -/
theorem fromArgs_push_iff_accepted (w : World) (c : Context) :
    ((∃ call, (fromArgsAction w c).calls = [call] ∧
          call.input.Image = c.target ∧
          call.input.Manifests =
            (strings.Split c.platforms ",".toList).map (fun p =>
              buildEntry c.template (strings.Split p "/".toList)) ∧
          call.ignoreMissing = c.ignoreMissing) ↔
        (c.platforms ≠ [] ∧ c.template ≠ [] ∧ c.target ≠ [] ∧
          ∀ p ∈ strings.Split c.platforms ",".toList,
            (strings.Split p "/".toList).length = 2 ∨
              (strings.Split p "/".toList).length = 3)) ∧
      (¬ (c.platforms ≠ [] ∧ c.template ≠ [] ∧ c.target ≠ [] ∧
          ∀ p ∈ strings.Split c.platforms ",".toList,
            (strings.Split p "/".toList).length = 2 ∨
              (strings.Split p "/".toList).length = 3) →
        (fromArgsAction w c).calls = [] ∧ ∃ msg, (fromArgsAction w c).exit = .fatal msg) := by
  have hrej : ¬ accepted c →
      (fromArgsAction w c).calls = [] ∧ ∃ msg, (fromArgsAction w c).exit = .fatal msg := by
    intro hn
    by_cases hm : c.platforms = [] ∨ c.template = [] ∨ c.target = []
    · rw [fromArgs_missing w c hm]
      exact ⟨rfl, _, rfl⟩
    · have hP : c.platforms ≠ [] := fun h => hm (Or.inl h)
      have hT : c.template ≠ [] := fun h => hm (Or.inr (Or.inl h))
      have hG : c.target ≠ [] := fun h => hm (Or.inr (Or.inr h))
      have hbad : ∃ p ∈ platformList c, ¬ wellFormed p := by
        by_contra hall
        apply hn
        refine ⟨hP, hT, hG, fun p hp => ?_⟩
        by_contra hp'
        exact hall ⟨p, hp, hp'⟩
      rw [fromArgs_malformed w c hP hT hG hbad]
      exact ⟨rfl, _, rfl⟩
  refine ⟨⟨?_, ?_⟩, hrej⟩
  · rintro ⟨call, hcall, -⟩
    by_contra hn
    rw [(hrej hn).1] at hcall
    cases hcall
  · intro hacc
    refine ⟨_, by rw [fromArgs_accepted w c hacc, push_calls], rfl, rfl, rfl⟩

/-- C4 (as stated, refuted): for the one-segment element `linux` the run ends
with the fatal message of line 97, and that message does not contain the text
`linux`. -/
theorem fromArgs_malformed_message_omits_element :
    "linux".toList ∈ strings.Split (argsContext "linux" "myimage-ARCH" "myimage").platforms
        ",".toList ∧
      (strings.Split "linux".toList "/".toList).length = 1 ∧
      (fromArgsAction sampleWorld (argsContext "linux" "myimage-ARCH" "myimage")).exit =
        .fatal malformedPlatformMessage ∧
      ¬ ("linux".toList <:+: malformedPlatformMessage) :=
  ⟨by decide, by decide, by decide,
    (strings.index_eq_none_iff malformedPlatformMessage "linux".toList).1 (by decide)⟩

/-- C4 (amended): when the three arguments are non-empty and some element of the
platform list has a number of segments other than 2 or 3, from-args makes no
call and ends with the fixed fatal message of line 97, whatever the offending
element is. -/
theorem fromArgs_malformed_fixed_message (w : World) (c : Context)
    (hP : c.platforms ≠ []) (hT : c.template ≠ []) (hG : c.target ≠ [])
    (p : GoString) (hp : p ∈ strings.Split c.platforms ",".toList)
    (hbad : (strings.Split p "/".toList).length ≠ 2 ∧
      (strings.Split p "/".toList).length ≠ 3) :
    fromArgsAction w c = { calls := [], exit := .fatal malformedPlatformMessage } :=
  fromArgs_malformed w c hP hT hG
    ⟨p, hp, fun h => h.elim (fun h2 => hbad.1 h2) (fun h3 => hbad.2 h3)⟩

/-- Witness of C4 (amended): a four-segment element after a well-formed one. -/
theorem fromArgs_malformed_fixed_message_witness :
    fromArgsAction sampleWorld (argsContext "linux/amd64,a/b/c/d" "myimage-ARCH" "myimage") =
      { calls := [], exit := .fatal malformedPlatformMessage } :=
  fromArgs_malformed_fixed_message sampleWorld
    (argsContext "linux/amd64,a/b/c/d" "myimage-ARCH" "myimage")
    (by decide) (by decide) (by decide) "a/b/c/d".toList (by decide) (by decide)

/-- C5: from-args ends with the fatal message of line 89 (MissingArgument) if
and only if one of platforms, template, target is empty; it then makes no
call. -/
theorem fromArgs_missingArgument_iff (w : World) (c : Context) :
    ((fromArgsAction w c).exit = .fatal missingArgumentMessage ↔
        (c.platforms = [] ∨ c.template = [] ∨ c.target = [])) ∧
      ((fromArgsAction w c).exit = .fatal missingArgumentMessage →
        (fromArgsAction w c).calls = []) := by
  have hne : malformedPlatformMessage ≠ missingArgumentMessage := by decide
  have hiff : (fromArgsAction w c).exit = .fatal missingArgumentMessage ↔
      (c.platforms = [] ∨ c.template = [] ∨ c.target = []) := by
    constructor
    · intro hexit
      by_contra hm
      have hP : c.platforms ≠ [] := fun h => hm (Or.inl h)
      have hT : c.template ≠ [] := fun h => hm (Or.inr (Or.inl h))
      have hG : c.target ≠ [] := fun h => hm (Or.inr (Or.inr h))
      by_cases hall : ∀ p ∈ platformList c, wellFormed p
      · rw [fromArgs_accepted w c ⟨hP, hT, hG, hall⟩] at hexit
        rcases push_exit w c
          { Image := c.target, Manifests := (platformList c).map (entryOf c.template) } with
          ⟨h, -⟩ | ⟨err, -, h⟩
        · rw [h] at hexit; cases hexit
        · rw [h] at hexit; cases hexit
      · have hbad : ∃ p ∈ platformList c, ¬ wellFormed p := by
          by_contra hnone
          exact hall fun p hp => by
            by_contra hp'
            exact hnone ⟨p, hp, hp'⟩
        rw [fromArgs_malformed w c hP hT hG hbad] at hexit
        exact hne (Exit.fatal.inj hexit)
    · intro hm
      rw [fromArgs_missing w c hm]
  refine ⟨hiff, fun hexit => ?_⟩
  rw [fromArgs_missing w c (hiff.1 hexit)]

/-- C6 (as stated, refuted): for the platform list `linux/amd64,linux/amd64`
from-args does not fail: it hands over a specification with two entries of the
same platform tuple and returns. -/
theorem fromArgs_duplicate_platform_pushed :
    fromArgsAction sampleWorld
        (argsContext "linux/amd64,linux/amd64" "myimage-ARCH" "myimage") =
      { calls :=
          [pushCall sampleWorld (argsContext "linux/amd64,linux/amd64" "myimage-ARCH" "myimage")
            { Image := "myimage".toList
              Manifests := [mkEntry "myimage-amd64" "linux" "amd64",
                mkEntry "myimage-amd64" "linux" "amd64"] }]
        exit := .returned } := by
  decide

/-- C6 (amended): from-args makes no uniqueness check.  For non-empty arguments
and a platform list of well-formed elements in which the elements at two
positions `i < j` denote the same (os, arch, variant) tuple, the action never
ends with a fatal message of its own: it calls the collaborator once with one
entry per element, and the entries at positions `i` and `j` have the same
platform. -/
theorem fromArgs_duplicates_not_rejected (w : World) (c : Context)
    (hP : c.platforms ≠ []) (hT : c.template ≠ []) (hG : c.target ≠ [])
    (hW : ∀ p ∈ strings.Split c.platforms ",".toList,
      (strings.Split p "/".toList).length = 2 ∨ (strings.Split p "/".toList).length = 3)
    (i j : Nat) (p q : GoString) (_hij : i < j)
    (hp : (strings.Split c.platforms ",".toList)[i]? = some p)
    (hq : (strings.Split c.platforms ",".toList)[j]? = some q)
    (hdup : platformTuple p = platformTuple q) :
    (∀ msg, (fromArgsAction w c).exit ≠ .fatal msg) ∧
      ∃ call, (fromArgsAction w c).calls = [call] ∧
        call.input.Manifests.length = (strings.Split c.platforms ",".toList).length ∧
        ∃ e₁ e₂, call.input.Manifests[i]? = some e₁ ∧ call.input.Manifests[j]? = some e₂ ∧
          e₁.Platform = e₂.Platform := by
  have hacc : accepted c := ⟨hP, hT, hG, hW⟩
  refine ⟨fromArgs_accepted_exit w c hacc, _, fromArgs_accepted_calls w c hacc, ?_, ?_⟩
  · simp [pushCall, platformList]
  · refine ⟨entryOf c.template p, entryOf c.template q, ?_, ?_, ?_⟩
    · simp only [pushCall, platformList, List.getElem?_map, hp, Option.map_some']
    · simp only [pushCall, platformList, List.getElem?_map, hq, Option.map_some']
    · rw [platform_entryOf _ _ (hW p (List.getElem?_mem hp)),
        platform_entryOf _ _ (hW q (List.getElem?_mem hq)), hdup]

/-- Witness of C6 (amended): `linux/amd64,linux/amd64`, positions 0 and 1. -/
theorem fromArgs_duplicates_not_rejected_witness :
    (∀ msg, (fromArgsAction sampleWorld
        (argsContext "linux/amd64,linux/amd64" "myimage-ARCH" "myimage")).exit ≠ .fatal msg) ∧
      ∃ call, (fromArgsAction sampleWorld
          (argsContext "linux/amd64,linux/amd64" "myimage-ARCH" "myimage")).calls = [call] ∧
        call.input.Manifests.length = 2 ∧
        ∃ e₁ e₂, call.input.Manifests[0]? = some e₁ ∧ call.input.Manifests[1]? = some e₂ ∧
          e₁.Platform = e₂.Platform :=
  fromArgs_duplicates_not_rejected sampleWorld
    (argsContext "linux/amd64,linux/amd64" "myimage-ARCH" "myimage")
    (by decide) (by decide) (by decide) (by decide) 0 1 "linux/amd64".toList
    "linux/amd64".toList (by decide) (by decide) (by decide) (by decide)

/-- C8 (as stated, refuted): the platform list `/amd64,linux/,/` is accepted, and
the entries handed over have an empty OS (first and third) and an empty
architecture (second and third). -/
theorem fromArgs_empty_os_arch_pushed :
    (fromArgsAction sampleWorld (argsContext "/amd64,linux/,/" "myimage-ARCH" "myimage")).calls.map
        (fun call => call.input) =
      [{ Image := "myimage".toList
         Manifests := [mkEntry "myimage-amd64" "" "amd64", mkEntry "myimage-" "linux" "",
           mkEntry "myimage-" "" ""] }] := by
  decide

/-- C8 (amended): from-args does not check that segments are non-empty.  For an
accepted platform list there is one entry per element, the entry at each
position has as OS the first segment and as architecture the second segment of
the element at that position, and so every entry handed over has a non-empty OS
and a non-empty architecture exactly when the first and the second segment of
every element are non-empty. -/
theorem fromArgs_os_arch_are_segments (w : World) (c : Context)
    (hP : c.platforms ≠ []) (hT : c.template ≠ []) (hG : c.target ≠ [])
    (hW : ∀ p ∈ strings.Split c.platforms ",".toList,
      (strings.Split p "/".toList).length = 2 ∨ (strings.Split p "/".toList).length = 3) :
    ∃ call, (fromArgsAction w c).calls = [call] ∧
      call.input.Manifests.length = (strings.Split c.platforms ",".toList).length ∧
      (∀ (i : Nat) (p : GoString) (e : ManifestEntry),
        (strings.Split c.platforms ",".toList)[i]? = some p →
        call.input.Manifests[i]? = some e →
        e.Platform.OS = (strings.Split p "/".toList).getD 0 [] ∧
          e.Platform.Architecture = (strings.Split p "/".toList).getD 1 []) ∧
      ((∀ e ∈ call.input.Manifests, e.Platform.OS ≠ [] ∧ e.Platform.Architecture ≠ []) ↔
        ∀ p ∈ strings.Split c.platforms ",".toList,
          (strings.Split p "/".toList).getD 0 [] ≠ [] ∧
            (strings.Split p "/".toList).getD 1 [] ≠ []) := by
  have hacc : accepted c := ⟨hP, hT, hG, hW⟩
  refine ⟨_, fromArgs_accepted_calls w c hacc, ?_, ?_, ?_⟩
  · simp [pushCall, platformList]
  · intro i p e hp he
    simp only [pushCall, platformList, List.getElem?_map, hp, Option.map_some',
      Option.some.injEq] at he
    subst he
    exact ⟨rfl, rfl⟩
  · simp only [pushCall, platformList, List.mem_map, forall_exists_index, and_imp,
      forall_apply_eq_imp_iff₂]
    rfl

/-- Witness of C8 (amended): `linux/amd64,/arm64,linux/`, an accepted list whose
second element has an empty first segment and whose third element has an empty
second segment; the entries handed over have the (OS, architecture) pairs
(`linux`, `amd64`), (empty, `arm64`), (`linux`, empty). -/
theorem fromArgs_os_arch_are_segments_witness :
    (fromArgsAction sampleWorld
        (argsContext "linux/amd64,/arm64,linux/" "myimage-ARCH" "myimage")).calls.map
        (fun call => call.input.Manifests.map
          (fun e => (e.Platform.OS, e.Platform.Architecture))) =
      [[("linux".toList, "amd64".toList), ([], "arm64".toList), ("linux".toList, [])]] ∧
    ∃ call, (fromArgsAction sampleWorld
        (argsContext "linux/amd64,/arm64,linux/" "myimage-ARCH" "myimage")).calls = [call] ∧
      call.input.Manifests.length = 3 ∧
      (∀ (i : Nat) (p : GoString) (e : ManifestEntry),
        (strings.Split "linux/amd64,/arm64,linux/".toList ",".toList)[i]? = some p →
        call.input.Manifests[i]? = some e →
        e.Platform.OS = (strings.Split p "/".toList).getD 0 [] ∧
          e.Platform.Architecture = (strings.Split p "/".toList).getD 1 []) ∧
      ((∀ e ∈ call.input.Manifests, e.Platform.OS ≠ [] ∧ e.Platform.Architecture ≠ []) ↔
        ∀ p ∈ strings.Split "linux/amd64,/arm64,linux/".toList ",".toList,
          (strings.Split p "/".toList).getD 0 [] ≠ [] ∧
            (strings.Split p "/".toList).getD 1 [] ≠ []) :=
  ⟨by decide,
    fromArgs_os_arch_are_segments sampleWorld
      (argsContext "linux/amd64,/arm64,linux/" "myimage-ARCH" "myimage")
      (by decide) (by decide) (by decide) (by decide)⟩

/-- C9 (as stated, refuted): a successfully parsed document with an empty target
and `manifests: []` is handed to the collaborator, and the action returns. -/
theorem fromSpec_empty_document_pushed :
    fromSpecAction sampleWorld (specContext "spec.yaml") =
      { calls := [pushCall sampleWorld (specContext "spec.yaml") { Image := [], Manifests := [] }]
        exit := .returned } := by
  decide

/-- C9 (amended): from-spec makes no structural check.  Every successfully
parsed document is passed verbatim to the collaborator, exactly once, whatever
its target, its manifests list and its platform fields are; the action fails
after that only with the error the collaborator returns. -/
theorem fromSpec_passes_document_verbatim (w : World) (c : Context)
    (filename yamlFile : GoString) (yamlInput : YAMLInput)
    (hAbs : w.filepathAbs c.firstArg = .ok filename)
    (hRead : w.readFile filename = .ok yamlFile)
    (hParse : w.yamlUnmarshal yamlFile = .ok yamlInput) :
    ∃ call, (fromSpecAction w c).calls = [call] ∧
      call.input = yamlInput ∧ call.ignoreMissing = c.ignoreMissing ∧
      (((fromSpecAction w c).exit = .returned ∧ ∃ r, w.PushManifestList call = .ok r) ∨
        ∃ err, w.PushManifestList call = .error err ∧
          (fromSpecAction w c).exit = .fatalErr err) := by
  have h : fromSpecAction w c = push w c yamlInput := by
    simp only [fromSpecAction, hAbs, hRead, hParse]
  rw [h]
  exact ⟨_, push_calls w c yamlInput, rfl, rfl, push_exit w c yamlInput⟩

/-- Witness of C9 (amended): the document with an empty target and
`manifests: []`. -/
theorem fromSpec_passes_document_verbatim_witness :
    ∃ call, (fromSpecAction sampleWorld (specContext "spec.yaml")).calls = [call] ∧
      call.input = { Image := [], Manifests := [] } ∧ call.ignoreMissing = false ∧
      (((fromSpecAction sampleWorld (specContext "spec.yaml")).exit = .returned ∧
          ∃ r, sampleWorld.PushManifestList call = .ok r) ∨
        ∃ err, sampleWorld.PushManifestList call = .error err ∧
          (fromSpecAction sampleWorld (specContext "spec.yaml")).exit = .fatalErr err) :=
  fromSpec_passes_document_verbatim sampleWorld (specContext "spec.yaml")
    "spec.yaml".toList [] { Image := [], Manifests := [] } rfl rfl rfl

/-- C10: when the template contains none of "ARCH", "OS", "VARIANT", the
resolved image reference is the template itself for every platform, so for an
accepted platform list every entry handed over carries the template as its
image reference, and from-args reports no error of its own. -/
theorem fromArgs_template_without_tokens (w : World) (c : Context)
    (hP : c.platforms ≠ []) (hT : c.template ≠ []) (hG : c.target ≠ [])
    (hW : ∀ p ∈ strings.Split c.platforms ",".toList,
      (strings.Split p "/".toList).length = 2 ∨ (strings.Split p "/".toList).length = 3)
    (hA : ¬ "ARCH".toList <:+: c.template) (hO : ¬ "OS".toList <:+: c.template)
    (hV : ¬ "VARIANT".toList <:+: c.template) :
    (∀ os arch variant, resolveImage c.template os arch variant = c.template) ∧
      (∀ msg, (fromArgsAction w c).exit ≠ .fatal msg) ∧
      ∃ call, (fromArgsAction w c).calls = [call] ∧
        call.input.Manifests.length = (strings.Split c.platforms ",".toList).length ∧
        ∀ e ∈ call.input.Manifests, e.Image = c.template := by
  have hres : ∀ os arch variant, resolveImage c.template os arch variant = c.template := by
    intro os arch variant
    unfold resolveImage
    rw [strings.replace_one_of_not_infix c.template _ arch (by decide) hA,
      strings.replace_one_of_not_infix c.template _ os (by decide) hO,
      strings.replace_one_of_not_infix c.template _ variant (by decide) hV]
  have hacc : accepted c := ⟨hP, hT, hG, hW⟩
  refine ⟨hres, fromArgs_accepted_exit w c hacc, _, fromArgs_accepted_calls w c hacc, ?_, ?_⟩
  · simp [pushCall, platformList]
  · intro e he
    simp only [pushCall, List.mem_map] at he
    obtain ⟨p, -, rfl⟩ := he
    exact hres _ _ _

/-- Witness of C10: template `myimage` for `linux/amd64,linux/arm64`. -/
theorem fromArgs_template_without_tokens_witness :
    (∀ os arch variant, resolveImage "myimage".toList os arch variant = "myimage".toList) ∧
      (∀ msg, (fromArgsAction sampleWorld
        (argsContext "linux/amd64,linux/arm64" "myimage" "target")).exit ≠ .fatal msg) ∧
      ∃ call, (fromArgsAction sampleWorld
          (argsContext "linux/amd64,linux/arm64" "myimage" "target")).calls = [call] ∧
        call.input.Manifests.length = 2 ∧
        ∀ e ∈ call.input.Manifests, e.Image = "myimage".toList :=
  fromArgs_template_without_tokens sampleWorld
    (argsContext "linux/amd64,linux/arm64" "myimage" "target")
    (by decide) (by decide) (by decide) (by decide)
    ((strings.index_eq_none_iff _ _).1 (by decide))
    ((strings.index_eq_none_iff _ _).1 (by decide))
    ((strings.index_eq_none_iff _ _).1 (by decide))

/-- C2: for an accepted platform list, the image reference of the entry built
for an element with segments (os, arch, variant) is obtained from the template
by three successive replacements in this order: the first occurrence of "ARCH"
by arch, then in that result the first occurrence of "OS" by os, then in that
result the first occurrence of "VARIANT" by variant (empty when the element has
two segments); a token that does not occur leaves the string unchanged.  The
image is such a result, and every result of the three replacements is the
image. -/
theorem fromArgs_image_three_replacements (w : World) (c : Context)
    (hP : c.platforms ≠ []) (hT : c.template ≠ []) (hG : c.target ≠ [])
    (hW : ∀ p ∈ strings.Split c.platforms ",".toList,
      (strings.Split p "/".toList).length = 2 ∨ (strings.Split p "/".toList).length = 3) :
    ∃ call, (fromArgsAction w c).calls = [call] ∧
      call.input.Manifests.length = (strings.Split c.platforms ",".toList).length ∧
      ∀ (i : Nat) (p : GoString) (e : ManifestEntry),
        (strings.Split c.platforms ",".toList)[i]? = some p →
        call.input.Manifests[i]? = some e →
        (∃ s₁ s₂,
          FirstOccurrenceReplaced c.template "ARCH".toList
            ((strings.Split p "/".toList).getD 1 []) s₁ ∧
          FirstOccurrenceReplaced s₁ "OS".toList ((strings.Split p "/".toList).getD 0 []) s₂ ∧
          FirstOccurrenceReplaced s₂ "VARIANT".toList
            ((strings.Split p "/".toList).getD 2 []) e.Image) ∧
        ∀ s₁ s₂ r,
          FirstOccurrenceReplaced c.template "ARCH".toList
            ((strings.Split p "/".toList).getD 1 []) s₁ →
          FirstOccurrenceReplaced s₁ "OS".toList ((strings.Split p "/".toList).getD 0 []) s₂ →
          FirstOccurrenceReplaced s₂ "VARIANT".toList
            ((strings.Split p "/".toList).getD 2 []) r →
          e.Image = r := by
  have hacc : accepted c := ⟨hP, hT, hG, hW⟩
  refine ⟨_, fromArgs_accepted_calls w c hacc, ?_, ?_⟩
  · simp [pushCall, platformList]
  · intro i p e hp he
    simp only [pushCall, platformList, List.getElem?_map, hp, Option.map_some',
      Option.some.injEq] at he
    subst he
    have hv := variant_eq_getD _ (hW p (List.getElem?_mem hp))
    have h₁ := strings.replace_one_spec c.template "ARCH".toList
      ((strings.Split p "/".toList).getD 1 []) (by decide)
    have h₂ := strings.replace_one_spec
      (strings.Replace c.template "ARCH".toList ((strings.Split p "/".toList).getD 1 []) 1)
      "OS".toList ((strings.Split p "/".toList).getD 0 []) (by decide)
    have h₃ := strings.replace_one_spec
      (strings.Replace (strings.Replace c.template "ARCH".toList
        ((strings.Split p "/".toList).getD 1 []) 1) "OS".toList
        ((strings.Split p "/".toList).getD 0 []) 1)
      "VARIANT".toList ((strings.Split p "/".toList).getD 2 []) (by decide)
    have himg : (entryOf c.template p).Image =
        strings.Replace (strings.Replace (strings.Replace c.template "ARCH".toList
          ((strings.Split p "/".toList).getD 1 []) 1) "OS".toList
          ((strings.Split p "/".toList).getD 0 []) 1)
          "VARIANT".toList ((strings.Split p "/".toList).getD 2 []) 1 := by
      simp only [entryOf, buildEntry, segments, resolveImage, hv]
    rw [himg]
    refine ⟨⟨_, _, h₁, h₂, h₃⟩, fun s₁ s₂ r g₁ g₂ g₃ => ?_⟩
    have e₁ := firstOccurrenceReplaced_unique _ _ _ _ _ h₁ g₁
    rw [← e₁] at g₂
    have e₂ := firstOccurrenceReplaced_unique _ _ _ _ _ h₂ g₂
    rw [← e₂] at g₃
    exact firstOccurrenceReplaced_unique _ _ _ _ _ h₃ g₃

/-- Witness of C2: `linux/arm/v7,linux/amd64` with template
`repo/OS-ARCHVARIANT`. -/
theorem fromArgs_image_three_replacements_witness :
    (fromArgsAction sampleWorld
        (argsContext "linux/arm/v7,linux/amd64" "repo/OS-ARCHVARIANT" "repo")).calls.map
        (fun call => call.input.Manifests.map (fun e => e.Image)) =
      [["repo/linux-armv7".toList, "repo/linux-amd64".toList]] ∧
    ∃ call, (fromArgsAction sampleWorld
        (argsContext "linux/arm/v7,linux/amd64" "repo/OS-ARCHVARIANT" "repo")).calls = [call] ∧
      call.input.Manifests.length = 2 ∧
      ∀ (i : Nat) (p : GoString) (e : ManifestEntry),
        (strings.Split "linux/arm/v7,linux/amd64".toList ",".toList)[i]? = some p →
        call.input.Manifests[i]? = some e →
        (∃ s₁ s₂,
          FirstOccurrenceReplaced "repo/OS-ARCHVARIANT".toList "ARCH".toList
            ((strings.Split p "/".toList).getD 1 []) s₁ ∧
          FirstOccurrenceReplaced s₁ "OS".toList ((strings.Split p "/".toList).getD 0 []) s₂ ∧
          FirstOccurrenceReplaced s₂ "VARIANT".toList
            ((strings.Split p "/".toList).getD 2 []) e.Image) ∧
        ∀ s₁ s₂ r,
          FirstOccurrenceReplaced "repo/OS-ARCHVARIANT".toList "ARCH".toList
            ((strings.Split p "/".toList).getD 1 []) s₁ →
          FirstOccurrenceReplaced s₁ "OS".toList ((strings.Split p "/".toList).getD 0 []) s₂ →
          FirstOccurrenceReplaced s₂ "VARIANT".toList
            ((strings.Split p "/".toList).getD 2 []) r →
          e.Image = r :=
  ⟨by decide,
    fromArgs_image_three_replacements sampleWorld
      (argsContext "linux/arm/v7,linux/amd64" "repo/OS-ARCHVARIANT" "repo")
      (by decide) (by decide) (by decide) (by decide)⟩

/-- C7 (as stated, refuted): the substitutions act on each other.  With
template `ARCH`, arch `OS` and os `linux`, the text inserted for ARCH is rewritten
by the OS substitution: the result is `linux` (also as the image of the entry
from-args builds for the element `linux/OS`), which is not an independent
substitution of the template.  With template `OARCHS`, an empty arch and os
`linux`, the characters `O` and `S` of the template, which are outside every
token occurrence, are rewritten: the result is again `linux`. -/
theorem resolveImage_not_independent :
    (fromArgsAction sampleWorld (argsContext "linux/OS" "ARCH" "myimage")).calls.map
        (fun call => call.input.Manifests.map (fun e => e.Image)) = [["linux".toList]] ∧
      resolveImage "ARCH".toList "linux".toList "OS".toList [] = "linux".toList ∧
      ¬ IndependentSubstitution "ARCH".toList "linux".toList "OS".toList []
        (resolveImage "ARCH".toList "linux".toList "OS".toList []) ∧
      (fromArgsAction sampleWorld (argsContext "linux/" "OARCHS" "myimage")).calls.map
        (fun call => call.input.Manifests.map (fun e => e.Image)) = [["linux".toList]] ∧
      resolveImage "OARCHS".toList "linux".toList [] [] = "linux".toList ∧
      ¬ IndependentSubstitution "OARCHS".toList "linux".toList [] []
        (resolveImage "OARCHS".toList "linux".toList [] []) := by
  have e₁ : resolveImage "ARCH".toList "linux".toList "OS".toList [] = "linux".toList := by
    decide
  have e₂ : resolveImage "OARCHS".toList "linux".toList [] [] = "linux".toList := by decide
  have tA : "ARCH".toList = ['A', 'R', 'C', 'H'] := rfl
  have tO : "OS".toList = ['O', 'S'] := rfl
  have tV : "VARIANT".toList = ['V', 'A', 'R', 'I', 'A', 'N', 'T'] := rfl
  have tL : "linux".toList = ['l', 'i', 'n', 'u', 'x'] := rfl
  have tM : "OARCHS".toList = ['O', 'A', 'R', 'C', 'H', 'S'] := rfl
  refine ⟨by decide, e₁, ?_, by decide, e₂, ?_⟩
  · rw [e₁]
    rintro ⟨m, hm, -, hr⟩
    rw [tA] at hm
    rw [tL, tO] at hr
    cases m with
    | nil => cases hm
    | cons x m =>
      rw [List.flatMap_cons] at hm hr
      rcases x with ch | tok
      · simp only [erase, List.singleton_append, List.cons.injEq] at hm
        simp only [expand, List.singleton_append, List.cons.injEq] at hr
        rw [← hr.1] at hm
        exact absurd hm.1 (by decide)
      · cases tok
        · simp [expand] at hr
        · simp [erase, tokenText, tO] at hm
        · simp [erase, tokenText, tV] at hm
  · rw [e₂]
    rintro ⟨m, hm, -, hr⟩
    rw [tM] at hm
    rw [tL] at hr
    cases m with
    | nil => cases hm
    | cons x m =>
      rw [List.flatMap_cons] at hm hr
      rcases x with ch | tok
      · simp only [erase, List.singleton_append, List.cons.injEq] at hm
        simp only [expand, List.singleton_append, List.cons.injEq] at hr
        rw [← hr.1] at hm
        exact absurd hm.1 (by decide)
      · cases tok
        · simp [erase, tokenText, tA] at hm
        · simp [erase, tokenText, tO] at hm
        · simp [erase, tokenText, tV] at hm

/-- C7 (amended): for every template and every platform whose os and arch values
are non-empty and contain no character of a token substituted after them (arch:
no character of "OS" or "VARIANT"; os: no character of "VARIANT"), the resolved
image reference is an independent substitution of the template: the template
with the first occurrence of each token replaced by the platform value, all
other text untouched, no inserted text rewritten. -/
theorem resolveImage_independent_for_clean_values (templ os arch variant : GoString)
    (hos : os ≠ []) (harch : arch ≠ [])
    (harchOS : ∀ ch ∈ arch, ch ∉ "OS".toList)
    (harchV : ∀ ch ∈ arch, ch ∉ "VARIANT".toList)
    (hosV : ∀ ch ∈ os, ch ∉ "VARIANT".toList) :
    IndependentSubstitution templ os arch variant (resolveImage templ os arch variant) ∧
      resolveImage templ os arch variant = independentResolve templ os arch variant :=
  ⟨⟨markTemplate templ, markTemplate_erase templ, markTemplate_count templ,
      resolveImage_eq_independentResolve templ os arch variant hos harch harchOS harchV hosV⟩,
    resolveImage_eq_independentResolve templ os arch variant hos harch harchOS harchV hosV⟩

/-- Witness of C7 (amended): template `repo/OS-ARCHVARIANT:ARCH` for
`linux/arm/v7`; the second `ARCH` stays. -/
theorem resolveImage_independent_for_clean_values_witness :
    resolveImage "repo/OS-ARCHVARIANT:ARCH".toList "linux".toList "arm".toList "v7".toList =
        "repo/linux-armv7:ARCH".toList ∧
      IndependentSubstitution "repo/OS-ARCHVARIANT:ARCH".toList "linux".toList "arm".toList
        "v7".toList
        (resolveImage "repo/OS-ARCHVARIANT:ARCH".toList "linux".toList "arm".toList
          "v7".toList) ∧
      resolveImage "repo/OS-ARCHVARIANT:ARCH".toList "linux".toList "arm".toList "v7".toList =
        independentResolve "repo/OS-ARCHVARIANT:ARCH".toList "linux".toList "arm".toList
          "v7".toList :=
  ⟨by decide,
    resolveImage_independent_for_clean_values "repo/OS-ARCHVARIANT:ARCH".toList "linux".toList
      "arm".toList "v7".toList (by decide) (by decide) (by decide) (by decide) (by decide)⟩

end ManifestTool
